import Mathlib

/-!
# Verification of the heuristic table-to-record extractor
(`python_scripts/scrape_products_jsonld.py`)

This file is a shallow embedding of the extractor core in Lean 4.
Text is modelled as `List Char` (`Str`), the parsed HTML document as a rose
tree (`Node`); HTML parsing itself (BeautifulSoup's `html.parser`) and the
library collaborators `urllib.parse.urljoin` and `hashlib.md5` are outside
the repository, so the embedding takes the parsed tree as input and takes
`urljoin`/`md5hex` as explicit function parameters.  Every definition below
is translated from the Python source; comments cite the source lines.
-/

namespace Scrape

/-- Text is modelled as a list of characters. -/
abbrev Str := List Char

/-- Conversion from Lean string literals. -/
def str (s : String) : Str := s.data

/-- Python `\s` on the ASCII range: the whitespace class used by `re.sub`
and `str.strip` (Unicode whitespace beyond ASCII is not modelled). -/
def isSpace (c : Char) : Bool :=
  c = ' ' || c = '\t' || c = '\n' || c = '\r' || c = '\x0b' || c = '\x0c'

/-- ASCII case folding, modelling Python `str.lower` on the ASCII range. -/
def lower (s : Str) : Str := s.map Char.toLower

/-- `needle` occurs at the start of `hay` (Python `str.startswith`). -/
def begins : Str → Str → Bool
  | [], _ => true
  | _ :: _, [] => false
  | a :: as, b :: bs => a = b && begins as bs

/-- Python `in` on strings: `needle` is a contiguous substring of `hay`. -/
def substrIn (needle : Str) : Str → Bool
  | [] => needle.isEmpty
  | c :: t => begins needle (c :: t) || substrIn needle t

/-- Python `str.strip()`: remove leading and trailing whitespace. -/
def pyStrip (s : Str) : Str := (s.dropWhile isSpace).rdropWhile isSpace

/-- Replace every whitespace character by a plain space (first half of
`re.sub(r"\s+", " ", s)`). -/
def blankify (s : Str) : Str := s.map (fun c => if isSpace c then ' ' else c)

/-- Collapse adjacent spaces to a single space (second half of
`re.sub(r"\s+", " ", s)` once all whitespace is `' '`). -/
def squeeze : Str → Str
  | [] => []
  | [c] => [c]
  | a :: b :: t => if a = ' ' && b = ' ' then squeeze (b :: t) else a :: squeeze (b :: t)

/-- `clean` (source lines 39-40): `re.sub(r"\s+", " ", s or "").strip()`. -/
def clean (s : Str) : Str := pyStrip (squeeze (blankify s))

/-- Split a string at every occurrence of `sep` (Python `str.split(sep)`). -/
def splitOnChar (sep : Char) : Str → List Str
  | [] => [[]]
  | c :: t =>
    if c = sep then [] :: splitOnChar sep t
    else match splitOnChar sep t with
      | [] => [[c]]
      | p :: ps => (c :: p) :: ps

/-- First whitespace-delimited token of an already-stripped string
(Python `s.split()[0]` for non-empty `s`). -/
def firstToken (s : Str) : Str := s.takeWhile (fun c => ! isSpace c)

/-- Join a list of strings with a separator string (Python `sep.join`). -/
def joinWith (sep : Str) : List Str → Str
  | [] => []
  | [s] => s
  | s :: t => s ++ sep ++ joinWith sep t

/-! ## Price parser (source lines 123-127)

`extract_price` runs `re.search(r"([€£$])?\s*([0-9][0-9,]*(?:\.[0-9]{1,2})?)", text)`
and returns group 2 with commas removed, or `None` when there is no match.
The regex has no effective backtracking: at a given start position the
optional currency symbol, the maximal whitespace run, the maximal
digit/comma run and the optional 1-2 digit fraction are all forced, so the
search is modelled as a left-to-right scan of start positions. -/

def isDigitC (c : Char) : Bool := '0' ≤ c && c ≤ '9'

def isCurrency (c : Char) : Bool := c = '€' || c = '£' || c = '$'

def isDigitComma (c : Char) : Bool := isDigitC c || c = ','

/-- Greedy second fractional digit of `{1,2}`: taken when present. -/
def fracTwo : Str → Str
  | d2 :: _ => if isDigitC d2 then [d2] else []
  | [] => []

/-- The characters consumed by `(?:\.[0-9]{1,2})?` at this position: a dot
followed by one digit, and a second digit when present (greedy `{1,2}`). -/
def fracPart : Str → Str
  | c :: d1 :: rest =>
    if c = '.' && isDigitC d1 then '.' :: d1 :: fracTwo rest else []
  | _ => []

/-- Boolean form of "is not a comma", the character filter applied to the
matched group (`.replace(",", "")`, source line 127). -/
def notComma (c : Char) : Bool := c ≠ ','

/-- The characters consumed by `[0-9][0-9,]*(?:\.[0-9]{1,2})?` at this
position, or `none` when the leading digit is missing. -/
def numAt : Str → Option Str
  | [] => none
  | c :: rest =>
    if isDigitC c then
      some (c :: rest.takeWhile isDigitComma ++ fracPart (rest.dropWhile isDigitComma))
    else none

/-- Whether the whole pattern matches at this start position, and if so the
text of group 2. -/
def matchAt (s : Str) : Option Str :=
  let s1 := match s with
    | c :: rest => if isCurrency c then rest else s
    | [] => s
  numAt (s1.dropWhile isSpace)

/-- `re.search`: the match at the leftmost start position that admits one. -/
def searchNum : Str → Option Str
  | [] => none
  | c :: t =>
    match matchAt (c :: t) with
    | some r => some r
    | none => searchNum t

/-- `extract_price` (source lines 123-127). -/
def extract_price (text : Str) : Option Str :=
  (searchNum text).map (fun r => r.filter notComma)

/-! ### Facts about `extract_price` used for claim C1 -/

/-- Shape of a returned price: a nonempty block of digits followed by an
optional dot with one or two digits, and no commas. -/
def PriceShape (r : Str) : Prop :=
  ∃ ds fs, r = ds ++ fs ∧ ds ≠ [] ∧ (∀ c ∈ ds, isDigitC c = true) ∧
    (fs = [] ∨ (∃ d1, isDigitC d1 = true ∧ fs = ['.', d1]) ∨
      (∃ d1 d2, isDigitC d1 = true ∧ isDigitC d2 = true ∧ fs = ['.', d1, d2]))

/-! ## The parsed document model

BeautifulSoup's parsed document is modelled as a rose tree.  An element
carries its (parser-lowercased) tag name, its attribute list and children;
a text node carries its string.  The synthetic root plays the role of the
`BeautifulSoup` object itself: `find_all` from the soup searches its
descendants, which excludes the root.  Identity of DOM nodes (`is` in
Python) is modelled by the node's path from the root (`Loc`), which is
unique per node. -/

inductive Node where
  | elem (tag : Str) (attrs : List (Str × Str)) (children : List Node)
  | text (s : Str)

/-- Path of child indices from the root: the identity of a node. -/
abbrev Loc := List Nat

def Node.tagName : Node → Str
  | .elem t _ _ => t
  | .text _ => []

def Node.childList : Node → List Node
  | .elem _ _ cs => cs
  | .text _ => []

/-- `tag.get(key)`: first attribute with the given name. -/
def Node.attr (n : Node) (k : Str) : Option Str :=
  match n with
  | .elem _ attrs _ => (attrs.find? (fun p => p.1 = k)).map (fun p => p.2)
  | .text _ => none

mutual
/-- All NavigableStrings of the subtree, in document order (`.strings`). -/
def Node.strings : Node → List Str
  | .text s => [s]
  | .elem _ _ cs => stringsList cs
def stringsList : List Node → List Str
  | [] => []
  | n :: ns => n.strings ++ stringsList ns
end

/-- `get_text(" ")`: all strings of the subtree joined by a space. -/
def nodeText (n : Node) : Str := joinWith [' '] n.strings

mutual
/-- All nodes of the subtree in document (pre)order, excluding the node
itself: the list BeautifulSoup's `descendants` iterates. -/
def descsOf : Node → List Node
  | .text _ => []
  | .elem _ _ cs => descsList cs
def descsList : List Node → List Node
  | [] => []
  | c :: cs => c :: (descsOf c ++ descsList cs)
end

/-- `el.find_all(tag)`: element descendants with the given name, in
document order. -/
def findTags (n : Node) (t : Str) : List Node :=
  (descsOf n).filter (fun d => d.tagName = t)

mutual
/-- All element nodes of the subtree rooted at path `p`, with their paths,
in document (pre)order, the node itself included. -/
def entriesOf : Node → Loc → List (Loc × Node)
  | .text _, _ => []
  | .elem t a cs, p => (p, .elem t a cs) :: entriesChildren cs p 0
def entriesChildren : List Node → Loc → Nat → List (Loc × Node)
  | [], _, _ => []
  | c :: cs, p, i => entriesOf c (p ++ [i]) ++ entriesChildren cs p (i + 1)
end

/-- All element nodes of the document with their paths, in document order,
excluding the synthetic root (what `soup.find_all` iterates). -/
def docElems (d : Node) : List (Loc × Node) :=
  match d with
  | .elem _ _ cs => entriesChildren cs [] 0
  | .text _ => []

/-- The element entries strictly before the node at `l` in document order
(the reverse of BeautifulSoup's `previous_elements`). -/
def beforeE (d : Node) (l : Loc) : List (Loc × Node) :=
  (docElems d).takeWhile (fun e => e.1 ≠ l)

/-- The element entries strictly after the node at `l` in document order
(BeautifulSoup's `next_elements`, restricted to tags). -/
def afterE (d : Node) (l : Loc) : List (Loc × Node) :=
  ((docElems d).dropWhile (fun e => e.1 ≠ l)).drop 1

/-- The node at path `l`, with the synthetic root at `[]`. -/
def nodeAtLoc (d : Node) (l : Loc) : Option Node :=
  if l = [] then some d
  else ((docElems d).find? (fun e => e.1 = l)).map (fun e => e.2)

/-- The children (elements and strings) after child index `k`, with their
paths: `list(tag.next_siblings)` for the child at `parent ++ [k]`. -/
def siblingsFrom : List Node → Loc → Nat → Nat → List (Loc × Node)
  | [], _, _, _ => []
  | c :: cs, pl, i, k =>
    (if k < i then [(pl ++ [i], c)] else []) ++ siblingsFrom cs pl (i + 1) k

/-- `tag.next_siblings` of the node at `l`. -/
def nextSiblingEntries (d : Node) (l : Loc) : List (Loc × Node) :=
  match l.getLast? with
  | none => []
  | some k =>
    match nodeAtLoc d l.dropLast with
    | some (.elem _ _ cs) => siblingsFrom cs l.dropLast 0 k
    | _ => []

/-! ## Label stripping (source lines 84-96)

` strip_label_prefix(value, label_candidates)` cleans `value`, then for each
non-empty candidate `lab` builds `^(?:re.escape(clean(lab).rstrip(":")))\s*:\s*`
(IGNORECASE) and removes one leading occurrence; since the pattern always
consumes a colon, `re.sub` changes the string exactly when the pattern
matches.  If no candidate matches it falls back to stripping a generic
`^\s*description\s*:\s*`. -/

/-- Python `s.rstrip(":")`. -/
def rstripColons (s : Str) : Str := s.rdropWhile (fun c => c = ':')

/-- Case-insensitive literal prefix: the remainder of `s` after `lab`, if
`lab` is an IGNORECASE prefix of `s`. -/
def dropCIPrefix : Str → Str → Option Str
  | [], s => some s
  | _ :: _, [] => none
  | a :: as, b :: bs => if a.toLower = b.toLower then dropCIPrefix as bs else none

/-- The remainder after `\s*:\s*`: maximal whitespace, a colon, maximal
whitespace (the regex engine cannot backtrack here because whitespace never
equals a colon). -/
def colonWs (s : Str) : Option Str :=
  match s.dropWhile isSpace with
  | ':' :: rest => some (rest.dropWhile isSpace)
  | _ => none

/-- The remainder of `s` after a match of `^LAB\s*:\s*`, if any. -/
def labelMatch (lab s : Str) : Option Str :=
  match dropCIPrefix lab s with
  | some r => colonWs r
  | none => none

/-- One loop iteration of ` strip_label_prefix` (source lines 88-95):
`none` when the candidate is skipped or its pattern does not match. -/
def tryLab (s lab : Str) : Option Str :=
  if lab.isEmpty then none
  else
    match labelMatch (rstripColons (clean lab)) s with
    | some rest => some (pyStrip rest)
    | none => none

/-- The remainder after the generic `^\s*description\s*:\s*` pattern. -/
def genericMatch (s : Str) : Option Str :=
  labelMatch (str "description") (s.dropWhile isSpace)

/-- The fallback `re.sub(r"^\s*description\s*:\s*", "", s, re.I).strip()`
(source line 96). -/
def genericStrip (s : Str) : Str :=
  match genericMatch s with
  | some rest => pyStrip rest
  | none => pyStrip s

/-- The candidate loop of ` strip_label_prefix`. -/
def stripGo (s : Str) : List Str → Str
  | [] => genericStrip s
  | lab :: rest =>
    match tryLab s lab with
    | some r => r
    | none => stripGo s rest

/-- ` strip_label_prefix` (source lines 84-96). -/
def strip_label_prefix (value : Str) (label_candidates : List Str) : Str :=
  if value.isEmpty then value else stripGo (clean value) label_candidates

/-! ## Image candidate resolver (source lines 28-37 and 132-166)

`urllib.parse.urljoin` is standard-library code outside this repository;
the resolver takes it as a function parameter `uj`.  No claim depends on
its value: when `base_url` is `None` the source never calls it. -/

/-- `PLACEHOLDER_HINTS` (source lines 28-31). -/
def PLACEHOLDER_HINTS : List Str :=
  [str "/themes/", str "placeholder", str "quote.svg", str "transparent.gif",
   str "spacer.gif", str "blank.gif", str "pixel.gif", str "no-image",
   str "noimage", str "default-image", str "placeholder-img"]

/-- `_is_placeholder` (source lines 33-37): true for a missing or empty
URL, or when any hint occurs in the lowercased URL. -/
def is_placeholder : Option Str → Bool
  | none => true
  | some url =>
    if url.isEmpty then true
    else PLACEHOLDER_HINTS.any (fun h => substrIn h (lower url))

/-- The `src`-equivalent attribute priority list (source line 137). -/
def IMG_ATTR_KEYS : List Str :=
  [str "src", str "data-src", str "data-original", str "data-lazy", str "data-srcset"]

/-- Candidates contributed by one attribute value (source lines 138-145):
comma-separated values are split, each non-blank part contributing its
first whitespace-delimited token; otherwise the raw value. -/
def attrCandidates (v : Str) : List Str :=
  if v.contains ',' then
    (splitOnChar ',' v).filterMap (fun p =>
      if (pyStrip p).isEmpty then none else some (firstToken (pyStrip p)))
  else [v]

/-- Candidates from the `img` descendants of a cell (source lines 136-145). -/
def imgCandidates (el : Node) : List Str :=
  (findTags el (str "img")).foldr
    (fun img acc =>
      IMG_ATTR_KEYS.foldr
        (fun key acc2 =>
          match img.attr key with
          | none => acc2
          | some v => if v.isEmpty then acc2 else attrCandidates v ++ acc2)
        acc)
    []

/-- The image-extension test on an `href`
(`re.search(r'\.(png|jpe?g|webp|gif|svg|avif|ico)(?:\?.*)?$', href, re.I)`,
source line 149).  A match ends either at the end of the string or just
before one final newline (Python `$`); the optional query part starts at a
`'?'` and may not contain a newline (un-flagged `.`). -/
def IMG_EXTENSIONS : List Str :=
  [str "png", str "jpg", str "jpeg", str "webp", str "gif", str "svg",
   str "avif", str "ico"]

/-- Whether the lowercased, `$`-anchored core of the href ends in
`.ext` at position `i` with a legal query remainder after it. -/
def extMatchEndingAt (core : Str) (i : Nat) : Bool :=
  (IMG_EXTENSIONS.any (fun e => begins (('.' :: e).reverse) ((core.take i).reverse))) &&
  (i = core.length ||
    ((core.drop i).head? = some '?' &&
      ((core.drop i).drop 1).all (fun c => c ≠ '\n')))

/-- `href` matches the image-extension pattern. -/
def hrefIsImage (href : Str) : Bool :=
  let low := lower href
  let core := if low.getLast? = some '\n' then low.dropLast else low
  (List.range (core.length + 1)).any (fun i => extMatchEndingAt core i)

/-- Candidates from `a[href]` descendants (source lines 148-150). -/
def hrefCandidates (el : Node) : List Str :=
  ((descsOf el).filter
      (fun n => n.tagName = str "a" && (n.attr (str "href")).isSome)).filterMap
    (fun a =>
      match a.attr (str "href") with
      | some h => if hrefIsImage h then some h else none
      | none => none)

/-- One match attempt of the `url(...)` regex of source line 154: the
literal `url(`, an optional single or double quote, a nonempty greedy run
of characters that are neither quotes nor a closing parenthesis (the
captured group), an optional quote, then `)`.  The optional quotes and the
greedy run are forced by the character classes, so no backtracking can
succeed when this attempt fails. -/
def isQuoteC (c : Char) : Bool := c = '"' || c.toNat = 39

def styleUrlAt (s : Str) : Option (Str × Str) :=
  match s with
  | 'u' :: 'r' :: 'l' :: '(' :: rest =>
    let afterQ := match rest with
      | c :: r2 => if isQuoteC c then r2 else rest
      | [] => rest
    let content := afterQ.takeWhile (fun c => ! (isQuoteC c || c = ')'))
    let after := afterQ.dropWhile (fun c => ! (isQuoteC c || c = ')'))
    if content.isEmpty then none
    else
      match after with
      | ')' :: r3 => some (content, r3)
      | q :: ')' :: r3 => if isQuoteC q then some (content, r3) else none
      | _ => none
  | _ => none

/-- The `re.findall` scan: left to right, resuming after each match
(matches are non-overlapping).  The scan consumes at least one character
per step, so it is run with the string's length as fuel. -/
def styleUrlsFuel : Nat → Str → List Str
  | 0, _ => []
  | _ + 1, [] => []
  | n + 1, c :: t =>
    match styleUrlAt (c :: t) with
    | some (g, rest) => g :: styleUrlsFuel n rest
    | none => styleUrlsFuel n t

def styleUrls (s : Str) : List Str := styleUrlsFuel s.length s

/-- All raw candidates of `_pick_image_from_cell_or_link` in collection
order: `img` attributes, image-extension hrefs, inline-style `url(...)`
references (source lines 133-155). -/
def rawCandidates (el : Node) : List Str :=
  imgCandidates el ++ hrefCandidates el ++
    styleUrls ((el.attr (str "style")).getD [])

/-- The candidate list after dropping falsy entries and absolutizing
against the base URL (source line 158). -/
def absCandidates (uj : Str → Str → Str) (el : Node) (base : Option Str) : List Str :=
  (rawCandidates el).filterMap (fun c =>
    if c.isEmpty then none
    else some (match base with
      | some b => uj b c
      | none => c))

/-- `_pick_image_from_cell_or_link` (source lines 132-166): first
non-placeholder candidate, else the first candidate, else `None`. -/
def pick_image_from_cell_or_link (uj : Str → Str → Str) (el : Node)
    (base : Option Str) : Option Str :=
  let cands := absCandidates uj el base
  match cands.find? (fun c => ! is_placeholder (some c)) with
  | some c => some c
  | none => cands.head?

/-! ## Column role inference (source lines 98-121) -/

structure Cols where
  description : Option Nat
  price : Option Nat
  image : Option Nat
deriving DecidableEq

def DESC_KEYS : List Str := [str "description", str "desc"]

def IMAGE_KEYS : List Str :=
  [str "image", str "img", str "picture", str "photo", str "thumbnail",
   str "thumb", str "icon"]

/-- The header keyword loop (source lines 100-107): first header matching
a role wins it; roles are checked in order description, price, image. -/
def assignCols : List Str → Nat → Cols → Cols
  | [], _, c => c
  | h :: hs, i, c =>
    let hl := lower h
    let c1 := if c.description = none && DESC_KEYS.any (fun k => substrIn k hl) then
        { c with description := some i } else c
    let c2 := if c1.price = none && substrIn (str "price") hl then
        { c1 with price := some i } else c1
    let c3 := if c2.image = none && IMAGE_KEYS.any (fun k => substrIn k hl) then
        { c2 with image := some i } else c2
    assignCols hs (i + 1) c3

/-- The `td` cells of a row: `tr.find_all("td")` (all descendants). -/
def tdsOfRow (tr : Node) : List Node := findTags tr (str "td")

/-- The rows of a table: `table.find_all("tr")` (all descendants). -/
def rowsOfTable (t : Node) : List Node := findTags t (str "tr")

/-- `td.find("img")` is truthy: the cell has an `img` descendant. -/
def hasImg (td : Node) : Bool := ! (findTags td (str "img")).isEmpty

/-- `img_counts[j] = img_counts.get(j, 0) + 1` on a Python dict, keeping
insertion order. -/
def bump : List (Nat × Nat) → Nat → List (Nat × Nat)
  | [], j => [(j, 1)]
  | (k, v) :: t, j => if k = j then (k, v + 1) :: t else (k, v) :: bump t j

/-- One row of the density scan (source lines 114-116): count the cells
(by index) that contain an image. -/
def bumpRow : List (Nat × Nat) → List Node → Nat → List (Nat × Nat)
  | m, [], _ => m
  | m, td :: tds, j => bumpRow (if hasImg td then bump m j else m) tds (j + 1)

def totalCounts (m : List (Nat × Nat)) : Nat := (m.map (fun p => p.2)).sum

/-- The density scan over rows (source lines 110-118): rows without `td`
cells are skipped; after each counted row the scan stops once the
cumulative count reaches 5. -/
def scanImgCounts : List Node → List (Nat × Nat) → List (Nat × Nat)
  | [], m => m
  | tr :: rest, m =>
    let tds := tdsOfRow tr
    if tds.isEmpty then scanImgCounts rest m
    else
      let m2 := bumpRow m tds 0
      if 5 ≤ totalCounts m2 then m2 else scanImgCounts rest m2

/-- The number of rows the scan loop visits before `break` or exhaustion:
the iteration count of the loop at source lines 110-118. -/
def scanRowsVisited : List Node → List (Nat × Nat) → Nat
  | [], _ => 0
  | tr :: rest, m =>
    let tds := tdsOfRow tr
    if tds.isEmpty then 1 + scanRowsVisited rest m
    else
      let m2 := bumpRow m tds 0
      if 5 ≤ totalCounts m2 then 1 else 1 + scanRowsVisited rest m2

/-- Whether the scan of these rows ends in `break` (threshold reached). -/
def scanStopped : List Node → List (Nat × Nat) → Bool
  | [], _ => false
  | tr :: rest, m =>
    let tds := tdsOfRow tr
    if tds.isEmpty then scanStopped rest m
    else
      let m2 := bumpRow m tds 0
      if 5 ≤ totalCounts m2 then true else scanStopped rest m2

/-- `max(img_counts, key=img_counts.get)`: Python `max` keeps the first
key attaining the maximal value, in dict insertion order. -/
def firstMaxGo (k : Nat) (v : Nat) : List (Nat × Nat) → Nat
  | [] => k
  | (k2, v2) :: t => if v < v2 then firstMaxGo k2 v2 t else firstMaxGo k v t

def firstMax : List (Nat × Nat) → Option Nat
  | [] => none
  | (k, v) :: t => some (firstMaxGo k v t)

/-- `guess_columns` (source lines 98-121). -/
def guess_columns (header_cells : List Str) (table : Option Node) : Cols :=
  let cols := assignCols header_cells 0 ⟨none, none, none⟩
  match table with
  | none => cols
  | some t =>
    if cols.image = none then
      let m := scanImgCounts (rowsOfTable t) []
      match firstMax m with
      | some j => { cols with image := some j }
      | none => cols
    else cols

/-! ## Context associator (source lines 56-82)

`nearest_heading_and_desc` performs two backward walks from the table:
one over description-like `div`s (accepting the first whose next following
table is this very table), one over headings/paragraphs/containers
( stopping at the first heading, levels 1-5, and collecting `p` siblings
between that heading and the table when no description was found). -/

/-- The `class_` filter of source line 58: a `div` whose class attribute
is non-empty and mentions "description".  BeautifulSoup matches a callable
class filter against each class token and their joined string, which for a
space-free needle amounts to a substring test on the raw attribute. -/
def isDescDiv (n : Node) : Bool :=
  n.tagName = str "div" &&
    (match n.attr (str "class") with
     | some cs => ! cs.isEmpty && substrIn (str "description") cs
     | none => false)

/-- The description-div candidates the loop of lines 59-64 visits, in
visit order (reverse document order before the table). -/
def descCandidatesRev (d : Node) (tl : Loc) : List (Loc × Node) :=
  ((beforeE d tl).reverse).filter (fun e => isDescDiv e.2)

/-- `cand.find_next("table")` (source line 60). -/
def firstTableAfter (d : Node) (l : Loc) : Option Loc :=
  ((afterE d l).find? (fun e => e.2.tagName = str "table")).map (fun e => e.1)

/-- The anchoring test of source line 61: `next_tbl is table`. -/
def acceptDesc (d : Node) (tl : Loc) (e : Loc × Node) : Bool :=
  firstTableAfter d e.1 = some tl

/-- The loop of source lines 58-64: the first accepted candidate. -/
def descScanEntry (d : Node) (tl : Loc) : Option (Loc × Node) :=
  (descCandidatesRev d tl).find? (acceptDesc d tl)

/-- The description produced by the first phase (possibly empty). -/
def tableDescPhase1 (d : Node) (tl : Loc) : Str :=
  match descScanEntry d tl with
  | some e => clean (nodeText e.2)
  | none => []

def HEADING_TAGS : List Str := [str "h1", str "h2", str "h3", str "h4", str "h5"]

/-- The tag filter of `find_previous` at source line 67. -/
def PREV_FILTER_TAGS : List Str := HEADING_TAGS ++ [str "p", str "div"]

/-- Source line 71: `tag = (prev.name or "").lower(); tag in {h1..h5}`. -/
def isHeadingName (t : Str) : Bool := HEADING_TAGS.contains (lower t)

/-- The loop of source lines 65-81 visits, in reverse document order, the
elements matching the tag filter, and stops at the first heading. -/
def headingEntry (d : Node) (tl : Loc) : Option (Loc × Node) :=
  (((beforeE d tl).reverse).filter
      (fun e => PREV_FILTER_TAGS.contains e.2.tagName)).find?
    (fun e => isHeadingName e.2.tagName)

/-- The sibling walk of source lines 74-79: iterate the siblings after the
heading, stop at the table, collect cleaned text of `p` siblings. -/
def collectP : List (Loc × Node) → Loc → List Str
  | [], _ => []
  | e :: rest, tl =>
    if e.1 = tl then []
    else (if e.2.tagName = str "p" then [clean (nodeText e.2)] else []) ++
      collectP rest tl

def siblingParaTexts (d : Node) (h tl : Loc) : List Str :=
  collectP (nextSiblingEntries d h) tl

/-- `nearest_heading_and_desc` (source lines 56-82). -/
def nearest_heading_and_desc (d : Node) (tl : Loc) : Str × Str :=
  let desc1 := tableDescPhase1 d tl
  match headingEntry d tl with
  | none => ([], desc1)
  | some e =>
    let name := clean (nodeText e.2)
    let desc := if desc1.isEmpty then
        clean (joinWith [' ']
          ((siblingParaTexts d e.1 tl).filter (fun t => ! t.isEmpty)))
      else desc1
    (name, desc)

/-! ## Group assembly pipeline (source lines 169-243) -/

structure Sub where
  name : Str
  price : Str
  image : Option Str
deriving DecidableEq

structure Group where
  name : Str
  desc : Str
  subproducts : List Sub
  source : Str
deriving DecidableEq

/-- `[clean(th.get_text(" ")) for th in table.find_all("th")]` (line 179). -/
def headersOfTable (t : Node) : List Str :=
  (findTags t (str "th")).map (fun n => clean (nodeText n))

/-- The candidate-table test of source lines 180-183, second guard:
some header text contains "price" case-insensitively. -/
def hasPriceHeader (headers : List Str) : Bool :=
  headers.any (fun h => substrIn (str "price") (lower h))

/-- Python truthiness of an optional string. -/
def truthyO : Option Str → Bool
  | some s => ! s.isEmpty
  | none => false

/-- The fallback name cell `tds[min(1, len(tds) - 1)]` (source line 200). -/
def fallbackNameCell (tds : List Node) : Node :=
  tds.getD (min 1 (tds.length - 1)) (Node.text [])

/-- The name extraction of source lines 194-201.  When the description
role is assigned and in range, the label candidates are the matching
header text plus the literals; otherwise the cell at `min(1, len-1)` with
the literal candidates only. -/
def rowName (headers : List Str) (cols : Cols) (tds : List Node) : Str :=
  match cols.description with
  | some i =>
    if i < tds.length then
      strip_label_prefix (clean (nodeText (tds.getD i (Node.text []))))
        [headers.getD i [], str "Description", str "Desc"]
    else
      strip_label_prefix (clean (nodeText (fallbackNameCell tds)))
        [str "Description", str "Desc"]
  | none =>
    strip_label_prefix (clean (nodeText (fallbackNameCell tds)))
      [str "Description", str "Desc"]

/-- The price-text extraction of source lines 203-207: the price column
when assigned and in range, else the last cell `tds[-1]`. -/
def rowPriceText (cols : Cols) (tds : List Node) : Str :=
  match cols.price with
  | some i =>
    if i < tds.length then clean (nodeText (tds.getD i (Node.text [])))
    else clean (nodeText ((tds.getLast?).getD (Node.text [])))
  | none => clean (nodeText ((tds.getLast?).getD (Node.text [])))

/-- The image resolution of source lines 213-221 and the truthiness guard
of line 229: the assigned image column first, then the first truthy pick
across all cells. -/
def rowImage (uj : Str → Str → Str) (base : Option Str) (cols : Cols)
    (tds : List Node) : Option Str :=
  let init := match cols.image with
    | some i =>
      if i < tds.length then
        pick_image_from_cell_or_link uj (tds.getD i (Node.text [])) base
      else none
    | none => none
  let chosen := if truthyO init then init
    else match (tds.map
        (fun td => pick_image_from_cell_or_link uj td base)).find? truthyO with
      | some o => o
      | none => none
  if truthyO chosen then chosen else none

/-- The dedup key `f"{name}|{price}"` (source line 224). -/
def Sub.key (s : Sub) : Str := s.name ++ '|' :: s.price

/-- One iteration of the row loop (source lines 189-231): the surviving
`(key, item)` pair, or `none` when the row is skipped. -/
def processRow (uj : Str → Str → Str) (base : Option Str) (headers : List Str)
    (cols : Cols) (tr : Node) : Option (Str × Sub) :=
  let tds := tdsOfRow tr
  if tds.isEmpty then none
  else
    let name := rowName headers cols tds
    match extract_price (rowPriceText cols tds) with
    | none => none
    | some price =>
      if name.isEmpty then none
      else
        some (name ++ '|' :: price,
          { name := name, price := price, image := rowImage uj base cols tds })

/-- The surviving `(key, item)` pairs of a table, in row order. -/
def rowItems (uj : Str → Str → Str) (base : Option Str) (headers : List Str)
    (cols : Cols) (t : Node) : List (Str × Sub) :=
  (rowsOfTable t).filterMap (processRow uj base headers cols)

/-- `unique_subproducts[key] = item` if the key is absent, else skip
(source lines 223-231); Python dicts keep insertion order. -/
def dedupAdd (m : List (Str × Sub)) (it : Str × Sub) : List (Str × Sub) :=
  if m.any (fun p => p.1 = it.1) then m else m ++ [it]

def dedupFold : List (Str × Sub) → List (Str × Sub) → List (Str × Sub)
  | [], m => m
  | it :: its, m => dedupFold its (dedupAdd m it)

/-- `soup.find_all("table")` with locations (source line 178). -/
def tablesOf (d : Node) : List (Loc × Node) :=
  (docElems d).filter (fun e => e.2.tagName = str "table")

/-- The body of the table loop (source lines 178-241): the group this
table contributes, if any. -/
def perTable (uj : Str → Str → Str) (d : Node) (base srcHint : Option Str)
    (e : Loc × Node) : Option Group :=
  let headers := headersOfTable e.2
  if headers.isEmpty then none
  else if ! hasPriceHeader headers then none
  else
    let cols := guess_columns headers (some e.2)
    let nd := nearest_heading_and_desc d e.1
    let subs := (dedupFold (rowItems uj base headers cols e.2) []).map
      (fun p => p.2)
    if subs.isEmpty then none
    else some { name := nd.1, desc := nd.2, subproducts := subs,
                source := srcHint.getD [] }

/-- `parse_groups_from_html` (source lines 169-243), over the parsed tree. -/
def parse_groups_from_html (uj : Str → Str → Str) (d : Node)
    (base srcHint : Option Str) : List Group :=
  (tablesOf d).filterMap (perTable uj d base srcHint)

/-! ## Identifier assignment (source lines 129-130 and 305-312)

`hashlib.md5` is standard-library code outside this repository; the hex
digest is taken as a function parameter `md5hex`. -/

/-- `make_id` (source lines 129-130). -/
def make_id (md5hex : Str → Str) (text : Str) : Str :=
  str "ems-" ++ (md5hex text).take 12

structure SubI where
  name : Str
  price : Str
  image : Option Str
  id : Str
deriving DecidableEq

structure GroupI where
  name : Str
  desc : Str
  subproducts : List SubI
  source : Str
  id : Str
deriving DecidableEq

/-- The ID-assignment loop of `main` (source lines 305-312). -/
def assign_ids (md5hex : Str → Str) (g : Group) : GroupI :=
  let grp_key := g.source ++ '|' :: g.name
  { name := g.name, desc := g.desc, source := g.source,
    id := make_id md5hex grp_key,
    subproducts := g.subproducts.map (fun s =>
      { name := s.name, price := s.price, image := s.image,
        id := make_id md5hex (grp_key ++ '|' :: s.name ++ '|' :: s.price) }) }

/-- One source's full derivation: parse, then assign IDs (the per-source
body of `main`, source lines 303-312). -/
def runPipeline (uj : Str → Str → Str) (md5hex : Str → Str) (d : Node)
    (base srcHint : Option Str) : List GroupI :=
  (parse_groups_from_html uj d base srcHint).map (assign_ids md5hex)

/-! ## Concrete example material

Small parsed documents used to instantiate the theorems on concrete
inputs.  `ujId` is a concrete stand-in for the `urljoin` collaborator
(never invoked when the base URL is absent). -/

def ujId : Str → Str → Str := fun _ c => c

def h2n (s : String) : Node := .elem (str "h2") [] [.text (str s)]
def pn (s : String) : Node := .elem (str "p") [] [.text (str s)]
def thn (s : String) : Node := .elem (str "th") [] [.text (str s)]
def tdn (s : String) : Node := .elem (str "td") [] [.text (str s)]
def trn (cs : List Node) : Node := .elem (str "tr") [] cs
def tbl (cs : List Node) : Node := .elem (str "table") [] cs

/-- The end-to-end scenario document of the spec: a heading, a paragraph
and a product table with one exact duplicate row. -/
def exDoc : Node := .elem (str "doc") []
  [h2n "Widgets", pn "Great widgets.",
   tbl [trn [thn "Description", thn "Price"],
        trn [tdn "Widget A", tdn "$10.00"],
        trn [tdn "Widget A", tdn "$10.00"]]]

/-- A document whose only table has headers but no price header. -/
def exDocNoPrice : Node := .elem (str "doc") []
  [tbl [trn [thn "Name", thn "Qty"], trn [tdn "W", tdn "3"]]]

/-- A document with an anchored description div before its table. -/
def exDocDesc : Node := .elem (str "doc") []
  [.elem (str "div") [(str "class", str "product-description")]
     [.text (str "Nice desc")],
   tbl [trn [thn "Price"], trn [tdn "W", tdn "$5"]]]

/-- The placeholder-rejection scenario cell: the direct `src` is a spacer,
the lazy-load attribute holds the real image path. -/
def cellImg : Node := .elem (str "td") []
  [.elem (str "img")
     [(str "src", str "/themes/spacer.gif"), (str "data-src", str "/images/p1.jpg")] []]

/-- A row with one image-free cell, and a table of `n` such rows. -/
def ncRow : Node := .elem (str "tr") [] [.elem (str "td") [] [.text (str "x")]]

def tableNoImgRows (n : Nat) : Node :=
  .elem (str "table") [] (List.replicate n ncRow)

/-- A cell containing an image, and a row of five of them. -/
def imgTd : Node := .elem (str "td") [] [.elem (str "img") [] []]

def imgRow5 : Node := .elem (str "tr") [] (List.replicate 5 imgTd)

/-- Two sibling heading+table pairs (claim C4): the headings hold the
symbolic texts `a` and `b`, the tables arbitrary children. -/
def twoPairDoc (a b : Str) (t1c t2c : List Node) : Node :=
  .elem (str "doc") []
    [.elem (str "h2") [] [.text a], .elem (str "table") [] t1c,
     .elem (str "h2") [] [.text b], .elem (str "table") [] t2c]

/-- A table with an exact `(name, price)` duplicate whose later copy has
an image the first lacks (claim C2: the image is not merged in). -/
def exDocDupImg : Node := .elem (str "doc") []
  [tbl [trn [thn "Description", thn "Price"],
        trn [tdn "Widget A", tdn "$10.00"],
        trn [tdn "Widget A",
             .elem (str "td") []
               [.text (str "$10.00"),
                .elem (str "img") [(str "src", str "/images/real.jpg")] []]]]]

/-! ## Helper theorems -/

/-- `find?` characterization: a found element satisfies the predicate and
everything before it fails it. -/
theorem find?_split {α : Type} (p : α → Bool) (l : List α) (a : α)
    (h : l.find? p = some a) :
    p a = true ∧ ∃ l1 l2, l = l1 ++ a :: l2 ∧ ∀ x ∈ l1, p x = false := by
  induction l with
  | nil => simp [List.find?] at h
  | cons x xs ih =>
    by_cases hx : p x = true
    · rw [List.find?_cons_of_pos _ hx] at h
      injection h with h
      subst h
      exact ⟨hx, [], xs, rfl, by simp⟩
    · rw [List.find?_cons_of_neg _ (by simpa using hx)] at h
      obtain ⟨hpa, l1, l2, hsplit, hl1⟩ := ih h
      refine ⟨hpa, x :: l1, l2, by rw [hsplit]; rfl, ?_⟩
      intro y hy
      rcases List.mem_cons.mp hy with rfl | hy'
      · simpa using hx
      · exact hl1 y hy'

/-- `find?` converse: with everything before failing and `a` passing, the
search returns `a`. -/
theorem find?_first {α : Type} (p : α → Bool) (l1 : List α) (a : α) (l2 : List α)
    (h1 : ∀ x ∈ l1, p x = false) (h2 : p a = true) :
    (l1 ++ a :: l2).find? p = some a := by
  induction l1 with
  | nil => simp [List.find?_cons_of_pos _ h2]
  | cons x xs ih =>
    rw [List.cons_append, List.find?_cons_of_neg _ (by simp [h1 x (List.mem_cons_self x xs)])]
    exact ih fun y hy => h1 y (List.mem_cons_of_mem _ hy)

/-- `takeWhile` passes over a fully satisfying prefix. -/
theorem takeWhile_all_append {α : Type} (p : α → Bool) (l1 l2 : List α)
    (h : ∀ x ∈ l1, p x = true) :
    (l1 ++ l2).takeWhile p = l1 ++ l2.takeWhile p := by
  induction l1 with
  | nil => rfl
  | cons x xs ih =>
    rw [List.cons_append, List.takeWhile_cons,
      if_pos (h x (List.mem_cons_self x xs)), ih fun y hy => h y (List.mem_cons_of_mem _ hy)]
    rfl

theorem digit_notComma {d : Char} (h : isDigitC d = true) : notComma d = true := by
  have : d ≠ ',' := by
    intro hq; subst hq; exact absurd h (by decide)
  simp [notComma, this]

theorem digit_not_currency {d : Char} (h : isDigitC d = true) : isCurrency d = false := by
  by_contra hq
  rw [Bool.not_eq_false] at hq
  simp only [isCurrency, Bool.or_eq_true, decide_eq_true_eq] at hq
  rcases hq with (rfl | rfl) | rfl <;> exact absurd h (by decide)

theorem digit_not_space {d : Char} (h : isDigitC d = true) : isSpace d = false := by
  by_contra hq
  rw [Bool.not_eq_false] at hq
  simp only [isSpace, Bool.or_eq_true, decide_eq_true_eq] at hq
  rcases hq with ((((rfl | rfl) | rfl) | rfl) | rfl) | rfl <;> exact absurd h (by decide)

theorem fracPart_cases (l : Str) :
    fracPart l = [] ∨ (∃ d1, isDigitC d1 = true ∧ fracPart l = ['.', d1]) ∨
      (∃ d1 d2, isDigitC d1 = true ∧ isDigitC d2 = true ∧ fracPart l = ['.', d1, d2]) := by
  match l with
  | [] => left; rfl
  | [c] => left; rfl
  | c :: d1 :: rest =>
    simp only [fracPart]
    by_cases h : (c = '.' && isDigitC d1) = true
    · rw [if_pos h]
      have hd1 := (Bool.and_eq_true _ _).mp h |>.2
      match rest with
      | [] => right; left; exact ⟨d1, hd1, rfl⟩
      | d2 :: t =>
        by_cases h2 : isDigitC d2 = true
        · right; right; exact ⟨d1, d2, hd1, h2, by simp [fracTwo, h2]⟩
        · right; left; exact ⟨d1, hd1, by simp [fracTwo, h2]⟩
    · rw [if_neg h]; left; rfl

/-- The fraction part contains no comma, so the comma filter leaves it
unchanged. -/
theorem fracPart_filter (l : Str) : (fracPart l).filter notComma = fracPart l := by
  have hdot : notComma '.' = true := by decide
  rcases fracPart_cases l with hf | ⟨d1, hd1, hf⟩ | ⟨d1, d2, hd1, hd2, hf⟩
  · simp [hf]
  · simp [hf, List.filter_cons, digit_notComma hd1, hdot]
  · simp [hf, List.filter_cons, digit_notComma hd1, digit_notComma hd2, hdot]

theorem numAt_shape (s r0 : Str) (h : numAt s = some r0) :
    PriceShape (r0.filter notComma) := by
  match s with
  | [] => simp [numAt] at h
  | c :: rest =>
    simp only [numAt] at h
    by_cases hc : isDigitC c = true
    · rw [if_pos hc] at h
      injection h with h
      subst h
      refine ⟨c :: (rest.takeWhile isDigitComma).filter notComma,
        fracPart (rest.dropWhile isDigitComma), ?_, by simp, ?_, fracPart_cases _⟩
      · rw [List.cons_append, List.filter_cons, if_pos (digit_notComma hc),
          List.filter_append, fracPart_filter, List.cons_append]
      · intro x hx
        rcases List.mem_cons.mp hx with rfl | hx'
        · exact hc
        · have h1 := List.mem_takeWhile_imp (List.mem_filter.mp hx').1
          have h2 := (List.mem_filter.mp hx').2
          simp only [isDigitComma, Bool.or_eq_true] at h1
          rcases h1 with h1 | h1
          · exact h1
          · rw [of_decide_eq_true h1] at h2
            exact absurd h2 (by decide)
    · rw [if_neg hc] at h
      exact Option.noConfusion h

theorem matchAt_shape (s r0 : Str) (h : matchAt s = some r0) :
    PriceShape (r0.filter notComma) := by
  unfold matchAt at h
  exact numAt_shape _ _ h

theorem searchNum_shape (s r0 : Str) (h : searchNum s = some r0) :
    PriceShape (r0.filter notComma) := by
  induction s with
  | nil => simp [searchNum] at h
  | cons c t ih =>
    simp only [searchNum] at h
    cases hm : matchAt (c :: t) with
    | some r => rw [hm] at h; injection h with h; subst h; exact matchAt_shape _ _ hm
    | none => rw [hm] at h; exact ih h

/-- A successful match implies a digit occurs in the scanned text. -/
theorem numAt_digit (s r0 : Str) (h : numAt s = some r0) :
    ∃ c ∈ s, isDigitC c = true := by
  match s with
  | [] => simp [numAt] at h
  | c :: rest =>
    simp only [numAt] at h
    by_cases hc : isDigitC c = true
    · exact ⟨c, List.mem_cons_self .., hc⟩
    · simp [hc] at h

theorem matchAt_digit (s r0 : Str) (h : matchAt s = some r0) :
    ∃ c ∈ s, isDigitC c = true := by
  unfold matchAt at h
  match s with
  | [] => simp [numAt] at h
  | a :: rest =>
    simp only at h
    by_cases ha : isCurrency a = true
    · rw [if_pos ha] at h
      obtain ⟨c, hc, hd⟩ := numAt_digit _ _ h
      exact ⟨c, List.mem_cons_of_mem _ ((rest.dropWhile_sublist isSpace).mem hc), hd⟩
    · rw [if_neg ha] at h
      obtain ⟨c, hc, hd⟩ := numAt_digit _ _ h
      exact ⟨c, ((a :: rest).dropWhile_sublist isSpace).mem hc, hd⟩

theorem searchNum_none_of_no_digit (s : Str) (h : ∀ c ∈ s, isDigitC c = false) :
    searchNum s = none := by
  induction s with
  | nil => rfl
  | cons c t ih =>
    simp only [searchNum]
    cases hm : matchAt (c :: t) with
    | some r =>
      obtain ⟨d, hd, hdig⟩ := matchAt_digit _ _ hm
      rw [h d hd] at hdig
      exact absurd hdig (by simp)
    | none => exact ih fun x hx => h x (List.mem_cons_of_mem _ hx)

theorem searchNum_some_of_digit (s : Str) (h : ∃ c ∈ s, isDigitC c = true) :
    ∃ r, searchNum s = some r := by
  induction s with
  | nil => simp at h
  | cons c t ih =>
    simp only [searchNum]
    cases hm : matchAt (c :: t) with
    | some r => exact ⟨r, rfl⟩
    | none =>
      obtain ⟨d, hd, hdig⟩ := h
      rcases List.mem_cons.mp hd with rfl | hd'
      · exfalso
        have hne : matchAt (d :: t) ≠ none := by
          simp [matchAt, digit_not_currency hdig, List.dropWhile_cons,
            digit_not_space hdig, numAt, hdig]
        exact hne hm
      · exact ih ⟨d, hd', hdig⟩


theorem pyStrip_idem (s : Str) : pyStrip (pyStrip s) = pyStrip s := by
  unfold pyStrip
  set a := s.dropWhile isSpace with ha
  have h1 : a.dropWhile isSpace = a := List.dropWhile_idempotent _ _
  have h2 : (a.rdropWhile isSpace).dropWhile isSpace = a.rdropWhile isSpace := by
    rcases hr : a.rdropWhile isSpace with _ | ⟨h, t⟩
    · rfl
    · obtain ⟨rest, hrest⟩ := List.rdropWhile_prefix isSpace a
      rw [hr] at hrest
      have hae : a = h :: (t ++ rest) := by rw [← hrest]; simp
      have hhead : isSpace h = false := by
        rw [hae, List.dropWhile_cons] at h1
        by_contra hq
        rw [Bool.not_eq_false] at hq
        rw [if_pos hq] at h1
        have hlen := congrArg List.length h1
        have hle := (List.dropWhile_sublist (l := t ++ rest) isSpace).length_le
        simp [List.length_append] at hlen hle
        omega
      rw [List.dropWhile_cons, hhead]
      simp
  rw [h2, List.rdropWhile_idempotent]

theorem pyStrip_clean (v : Str) : pyStrip (clean v) = clean v := pyStrip_idem _

theorem stripGo_first (s : Str) (l1 : List Str) (lab : Str) (l2 : List Str) (r : Str)
    (h1 : ∀ x ∈ l1, tryLab s x = none) (h2 : tryLab s lab = some r) :
    stripGo s (l1 ++ lab :: l2) = r := by
  induction l1 with
  | nil => simp [stripGo, h2]
  | cons x xs ih =>
    simp only [List.cons_append, stripGo, h1 x (List.mem_cons_self x xs)]
    exact ih fun y hy => h1 y (List.mem_cons_of_mem _ hy)

theorem stripGo_none (s : Str) (labs : List Str)
    (h1 : ∀ x ∈ labs, tryLab s x = none) (h2 : genericMatch s = none) :
    stripGo s labs = pyStrip s := by
  induction labs with
  | nil => simp [stripGo, genericStrip, h2]
  | cons x xs ih =>
    simp only [stripGo, h1 x (List.mem_cons_self x xs)]
    exact ih fun y hy => h1 y (List.mem_cons_of_mem _ hy)

/-! ### Facts about document locations used for claim C4 -/

theorem entriesChildren_mem (cs : List Node) :
    ∀ (p : Loc) (i : Nat) (e : Loc × Node), e ∈ entriesChildren cs p i →
      ∃ j c, c ∈ cs ∧ e ∈ entriesOf c (p ++ [j]) := by
  induction cs with
  | nil => intro p i e h; simp [entriesChildren] at h
  | cons c cs ih =>
    intro p i e h
    simp only [entriesChildren] at h
    rcases List.mem_append.mp h with h1 | h2
    · exact ⟨i, c, List.mem_cons_self c cs, h1⟩
    · obtain ⟨j, c2, hc2, he⟩ := ih p (i + 1) e h2
      exact ⟨j, c2, List.mem_cons_of_mem _ hc2, he⟩

theorem entriesOf_prefix_k (k : Nat) : ∀ (n : Node), sizeOf n ≤ k →
    ∀ (p : Loc) (e : Loc × Node), e ∈ entriesOf n p → p <+: e.1 := by
  induction k with
  | zero =>
    intro n hn p e he
    exfalso
    cases n <;> simp at hn
  | succ k ih =>
    intro n hn p e he
    cases n with
    | text s => simp [entriesOf] at he
    | elem t a cs =>
      simp only [entriesOf] at he
      rcases List.mem_cons.mp he with rfl | he'
      · exact List.prefix_refl p
      · obtain ⟨j, c, hc, hce⟩ := entriesChildren_mem cs p 0 e he'
        have hsz : sizeOf c ≤ k := by
          have h1 := List.sizeOf_lt_of_mem hc
          have h2 : sizeOf (Node.elem t a cs) = 1 + sizeOf t + sizeOf a + sizeOf cs := by
            simp
          omega
        exact (List.prefix_append p [j]).trans (ih c hsz (p ++ [j]) e hce)

theorem entriesOf_prefix (n : Node) (p : Loc) (e : Loc × Node)
    (h : e ∈ entriesOf n p) : p <+: e.1 :=
  entriesOf_prefix_k (sizeOf n) n (Nat.le_refl _) p e h

/-- When a heading element immediately precedes the table in the
document-order element list, the heading scan of
`nearest_heading_and_desc` returns exactly that heading. -/
theorem headingEntry_adjacent (d : Node) (L1 : List (Loc × Node)) (hl : Loc)
    (hn : Node) (tl : Loc) (tn : Node) (L2 : List (Loc × Node))
    (hsplit : docElems d = L1 ++ (hl, hn) :: (tl, tn) :: L2)
    (hnot : ∀ x ∈ L1, x.1 ≠ tl) (hne : hl ≠ tl)
    (hhead : isHeadingName hn.tagName = true)
    (hfilter : PREV_FILTER_TAGS.contains hn.tagName = true) :
    headingEntry d tl = some (hl, hn) := by
  have hbefore : beforeE d tl = L1 ++ [(hl, hn)] := by
    rw [beforeE, hsplit,
      takeWhile_all_append _ _ _ (fun x hx => by simpa using hnot x hx),
      List.takeWhile_cons, if_pos (by simpa using hne), List.takeWhile_cons,
      if_neg (by simp)]
  rw [headingEntry, hbefore, List.reverse_append]
  simp only [List.reverse_cons, List.reverse_nil, List.nil_append,
    List.singleton_append]
  rw [List.filter_cons, if_pos (by simpa using hfilter),
    List.find?_cons_of_pos _ (by simpa using hhead)]

/-! ### Facts about the density scan used for claim C6 -/

theorem scanCounts_append (rows1 : List Node) :
    ∀ (rows2 : List Node) (m : List (Nat × Nat)), scanStopped rows1 m = true →
      scanImgCounts (rows1 ++ rows2) m = scanImgCounts rows1 m := by
  induction rows1 with
  | nil => intro rows2 m h; simp [scanStopped] at h
  | cons tr rest ih =>
    intro rows2 m h
    simp only [scanStopped] at h
    simp only [List.cons_append, scanImgCounts]
    by_cases ht : (tdsOfRow tr).isEmpty = true
    · rw [if_pos ht] at h ⊢
      rw [if_pos ht]
      exact ih rows2 m h
    · rw [if_neg ht] at h ⊢
      rw [if_neg ht]
      by_cases h5 : 5 ≤ totalCounts (bumpRow m (tdsOfRow tr) 0)
      · rw [if_pos h5, if_pos h5]
      · rw [if_neg h5] at h ⊢
        rw [if_neg h5]
        exact ih rows2 _ h

theorem scanVisited_append (rows1 : List Node) :
    ∀ (rows2 : List Node) (m : List (Nat × Nat)), scanStopped rows1 m = true →
      scanRowsVisited (rows1 ++ rows2) m = scanRowsVisited rows1 m := by
  induction rows1 with
  | nil => intro rows2 m h; simp [scanStopped] at h
  | cons tr rest ih =>
    intro rows2 m h
    simp only [scanStopped] at h
    simp only [List.cons_append, scanRowsVisited]
    by_cases ht : (tdsOfRow tr).isEmpty = true
    · rw [if_pos ht] at h ⊢
      rw [if_pos ht]
      exact congrArg (fun x => 1 + x) (ih rows2 m h)
    · rw [if_neg ht] at h ⊢
      rw [if_neg ht]
      by_cases h5 : 5 ≤ totalCounts (bumpRow m (tdsOfRow tr) 0)
      · rw [if_pos h5, if_pos h5]
      · rw [if_neg h5] at h ⊢
        rw [if_neg h5]
        exact congrArg (fun x => 1 + x) (ih rows2 _ h)

theorem firstMaxGo_spec (t : List (Nat × Nat)) :
    ∀ (k v : Nat),
    (firstMaxGo k v t = k ∧ ∀ q ∈ t, q.2 ≤ v) ∨
    (∃ w l1 l2, t = l1 ++ (firstMaxGo k v t, w) :: l2 ∧ v < w ∧
      (∀ q ∈ l1, q.2 < w) ∧ (∀ q ∈ l2, q.2 ≤ w)) := by
  induction t with
  | nil => intro k v; left; exact ⟨rfl, by simp⟩
  | cons p t' ih =>
    intro k v
    obtain ⟨k2, v2⟩ := p
    by_cases hlt : v < v2
    · have hred : firstMaxGo k v ((k2, v2) :: t') = firstMaxGo k2 v2 t' := by
        simp [firstMaxGo, hlt]
      rcases ih k2 v2 with ⟨heq, hall⟩ | ⟨w, l1, l2, hsp, hvw, hl1, hl2⟩
      · right
        exact ⟨v2, [], t', by rw [hred, heq]; rfl, hlt, by simp, hall⟩
      · right
        refine ⟨w, (k2, v2) :: l1, l2, ?_, by omega, ?_, hl2⟩
        · rw [hred]
          conv_lhs => rw [hsp]
          rfl
        · intro q hq
          rcases List.mem_cons.mp hq with rfl | hq'
          · simpa using hvw
          · exact hl1 q hq'
    · have hred : firstMaxGo k v ((k2, v2) :: t') = firstMaxGo k v t' := by
        simp [firstMaxGo, hlt]
      rcases ih k v with ⟨heq, hall⟩ | ⟨w, l1, l2, hsp, hvw, hl1, hl2⟩
      · left
        refine ⟨by rw [hred, heq], ?_⟩
        intro q hq
        rcases List.mem_cons.mp hq with rfl | hq'
        · simpa using Nat.le_of_not_lt hlt
        · exact hall q hq'
      · right
        refine ⟨w, (k2, v2) :: l1, l2, ?_, hvw, ?_, hl2⟩
        · rw [hred]
          conv_lhs => rw [hsp]
          rfl
        · intro q hq
          rcases List.mem_cons.mp hq with rfl | hq'
          · have := Nat.le_of_not_lt hlt
            simpa using Nat.lt_of_le_of_lt this hvw
          · exact hl1 q hq'

theorem firstMax_spec (m : List (Nat × Nat)) (k : Nat) (h : firstMax m = some k) :
    ∃ v l1 l2, m = l1 ++ (k, v) :: l2 ∧ (∀ q ∈ l1, q.2 < v) ∧
      (∀ q ∈ l2, q.2 ≤ v) := by
  match m with
  | [] => simp [firstMax] at h
  | (k1, v1) :: t =>
    simp only [firstMax] at h
    injection h with h
    subst h
    rcases firstMaxGo_spec t k1 v1 with ⟨heq, hall⟩ | ⟨w, l1, l2, hsp, hvw, hl1, hl2⟩
    · exact ⟨v1, [], t, by rw [heq]; rfl, by simp, hall⟩
    · refine ⟨w, (k1, v1) :: l1, l2, ?_, ?_, hl2⟩
      · conv_lhs => rw [hsp]
        rfl
      · intro q hq
        rcases List.mem_cons.mp hq with rfl | hq'
        · simpa using hvw
        · exact hl1 q hq'

theorem rows_tableNoImg (n : Nat) :
    rowsOfTable (tableNoImgRows n) = List.replicate n ncRow := by
  induction n with
  | zero => rfl
  | succ k ih =>
    simp only [rowsOfTable, findTags, tableNoImgRows, descsOf] at ih ⊢
    rw [List.replicate_succ]
    simp only [descsList, List.filter_cons, List.filter_append]
    rw [show ((descsOf ncRow).filter (fun d => d.tagName = str "tr")) = [] from rfl]
    rw [ih, if_pos (show decide (ncRow.tagName = str "tr") = true from rfl)]
    simp

theorem visited_replicate (n : Nat) :
    scanRowsVisited (List.replicate n ncRow) [] = n := by
  have hb : bumpRow [] (tdsOfRow ncRow) 0 = [] := by decide
  induction n with
  | zero => rfl
  | succ k ih =>
    rw [List.replicate_succ]
    simp only [scanRowsVisited, hb]
    rw [if_neg (by decide : ¬ (tdsOfRow ncRow).isEmpty = true),
      if_neg (by decide : ¬ 5 ≤ totalCounts []), ih]
    omega

/-! ### Facts about the dedup fold used for claim C2 -/

theorem dedupFold_keys_nodup (items : List (Str × Sub)) (m : List (Str × Sub))
    (hm : (m.map (fun p => p.1)).Nodup) :
    ((dedupFold items m).map (fun p => p.1)).Nodup := by
  induction items generalizing m with
  | nil => exact hm
  | cons it its ih =>
    simp only [dedupFold]
    apply ih
    by_cases hk : m.any (fun p => p.1 = it.1) = true
    · rwa [dedupAdd, if_pos hk]
    · have hk' : m.any (fun p => p.1 = it.1) = false := by
        cases hq : m.any (fun p => p.1 = it.1)
        · rfl
        · exact absurd hq hk
      rw [List.any_eq_false] at hk'
      have hnotin : it.1 ∉ m.map (fun p => p.1) := by
        intro hmem
        obtain ⟨q, hq, hqe⟩ := List.mem_map.mp hmem
        exact absurd (by simpa using hk' q hq : ¬ q.1 = it.1) (by simp [hqe])
      rw [dedupAdd, if_neg hk, List.map_append]
      refine List.Nodup.append hm (List.nodup_singleton _) ?_
      intro x hx1 hx2
      rw [List.map_cons, List.map_nil, List.mem_singleton] at hx2
      subst hx2
      exact hnotin hx1

theorem dedupFold_mem (items : List (Str × Sub)) (m : List (Str × Sub))
    (p : Str × Sub) (hp : p ∈ dedupFold items m) :
    p ∈ m ∨ (p.1 ∉ m.map (fun q => q.1) ∧
      ∃ l1 l2, items = l1 ++ p :: l2 ∧ ∀ q ∈ l1, q.1 ≠ p.1) := by
  induction items generalizing m with
  | nil => exact Or.inl hp
  | cons it its ih =>
    simp only [dedupFold] at hp
    rcases ih _ hp with hin | ⟨hnot, l1, l2, hsplit, hl1⟩
    · by_cases hk : m.any (fun q => q.1 = it.1) = true
      · rw [dedupAdd, if_pos hk] at hin
        exact Or.inl hin
      · rw [dedupAdd, if_neg hk] at hin
        rcases List.mem_append.mp hin with hm2 | hsing
        · exact Or.inl hm2
        · have hpit : p = it := by simpa using hsing
          subst hpit
          right
          refine ⟨?_, [], its, rfl, by simp⟩
          have hk' : m.any (fun q => q.1 = p.1) = false := by
            cases hq : m.any (fun q => q.1 = p.1)
            · rfl
            · exact absurd hq hk
          rw [List.any_eq_false] at hk'
          intro hmem
          obtain ⟨q, hq, hqe⟩ := List.mem_map.mp hmem
          exact absurd (by simpa using hk' q hq : ¬ q.1 = p.1) (by simp [hqe])
    · right
      have hmsub : ∀ x, x ∈ m.map (fun q => q.1) → x ∈ (dedupAdd m it).map (fun q => q.1) := by
        intro x hx
        by_cases hk : m.any (fun q => q.1 = it.1) = true
        · rwa [dedupAdd, if_pos hk]
        · rw [dedupAdd, if_neg hk, List.map_append]
          exact List.mem_append_left _ hx
      have hknotm : p.1 ∉ m.map (fun q => q.1) := fun hmem => hnot (hmsub _ hmem)
      have hkne : it.1 ≠ p.1 := by
        intro he
        apply hnot
        by_cases hk : m.any (fun q => q.1 = it.1) = true
        · rw [List.any_eq_true] at hk
          obtain ⟨q, hq, hqe⟩ := hk
          have : q.1 = it.1 := by simpa using hqe
          exact hmsub _ (by
            rw [← he, ← this]
            exact List.mem_map_of_mem _ hq)
        · rw [dedupAdd, if_neg hk, List.map_append]
          apply List.mem_append_right
          simp [he]
      exact ⟨hknotm, it :: l1, l2, by rw [hsplit]; rfl, by
        intro q hq
        rcases List.mem_cons.mp hq with rfl | hq'
        · exact hkne
        · exact hl1 q hq'⟩

/-- Each surviving row pair carries the dedup key of its record. -/
theorem rowItems_key (uj : Str → Str → Str) (base : Option Str)
    (headers : List Str) (cols : Cols) (t : Node) (pr : Str × Sub)
    (h : pr ∈ rowItems uj base headers cols t) : pr.1 = Sub.key pr.2 := by
  obtain ⟨tr, _, htr⟩ := List.mem_filterMap.mp h
  simp only [processRow] at htr
  by_cases h1 : (tdsOfRow tr).isEmpty = true
  · simp [h1] at htr
  · simp only [h1, Bool.false_eq_true, if_false] at htr
    cases hp : extract_price (rowPriceText cols (tdsOfRow tr)) with
    | none => rw [hp] at htr; exact Option.noConfusion htr
    | some price =>
      rw [hp] at htr
      by_cases h2 : (rowName headers cols (tdsOfRow tr)).isEmpty = true
      · simp [h2] at htr
      · simp only [h2, Bool.false_eq_true, if_false] at htr
        injection htr with htr
        subst htr
        rfl

end Scrape

open Scrape in
/-- **C1.** `extract_price` returns, for the leftmost occurrence of the
pattern "optional currency symbol, digits with optional comma grouping,
optional 1-2 digit fraction", the numeric portion with commas removed:
`extract_price "$1,234.50" = "1234.50"`, `extract_price "€99" = "99"`,
`extract_price "N/A"` is absent; any returned value is a decimal literal
with no thousands separators and at most two fractional digits; and the
result is absent exactly when no numeric substring (no digit) occurs. -/
theorem C1_extract_price_spec :
    extract_price (str "$1,234.50") = some (str "1234.50") ∧
    extract_price (str "€99") = some (str "99") ∧
    extract_price (str "N/A") = none ∧
    (∀ s r, extract_price s = some r → PriceShape r) ∧
    (∀ s, (∀ c ∈ s, isDigitC c = false) → extract_price s = none) ∧
    (∀ s, (∃ c ∈ s, isDigitC c = true) → ∃ r, extract_price s = some r) := by
  refine ⟨by decide, by decide, by decide, ?_, ?_, ?_⟩
  · intro s r h
    simp only [extract_price, Option.map_eq_some'] at h
    obtain ⟨r0, h0, rfl⟩ := h
    exact searchNum_shape _ _ h0
  · intro s h
    simp [extract_price, searchNum_none_of_no_digit s h]
  · intro s h
    obtain ⟨r0, h0⟩ := searchNum_some_of_digit s h
    exact ⟨r0.filter notComma, by simp [extract_price, h0]⟩

open Scrape in
/-- Witness for C1: the shape clause evaluated at the concrete input
`"$1,234.50"`. -/
theorem C1_extract_price_spec_witness :
    PriceShape (str "1234.50") :=
  C1_extract_price_spec.2.2.2.1 (str "$1,234.50") (str "1234.50") (by decide)

open Scrape in
/-- **C8.** ` strip_label_prefix` tries the candidates in order, removing
one case-insensitive leading label-plus-colon occurrence and returning on
the first candidate that matches; when none matches it strips a generic
leading `description:`; when nothing matches at all it returns the
normalized input unchanged; and
` strip_label_prefix "Description: Widget A" ["Description"] = "Widget A"`,
` strip_label_prefix "Widget A" ["Description"] = "Widget A"`. -/
theorem C8_strip_label_spec :
    strip_label_prefix (str "Description: Widget A") [str "Description"] = str "Widget A" ∧
    strip_label_prefix (str "Widget A") [str "Description"] = str "Widget A" ∧
    (∀ (v : Str) (l1 : List Str) (lab : Str) (l2 : List Str) (r : Str),
      (∀ x ∈ l1, tryLab (clean v) x = none) → tryLab (clean v) lab = some r →
      v ≠ [] → strip_label_prefix v (l1 ++ lab :: l2) = r) ∧
    (∀ (v : Str) (labs : List Str), (∀ x ∈ labs, tryLab (clean v) x = none) →
      genericMatch (clean v) = none → strip_label_prefix v labs = clean v) := by
  refine ⟨by decide, by decide, ?_, ?_⟩
  · intro v l1 lab l2 r h1 h2 hv
    have hne : v.isEmpty = false := by
      cases v
      · exact absurd rfl hv
      · rfl
    simp only [ strip_label_prefix, hne, Bool.false_eq_true, if_false]
    exact stripGo_first _ l1 lab l2 r h1 h2
  · intro v labs h1 h2
    by_cases hv : v = []
    · subst hv
      simp only [ strip_label_prefix, List.isEmpty_nil, if_true]
      decide
    · have hne : v.isEmpty = false := by
        cases v
        · exact absurd rfl hv
        · rfl
      simp only [ strip_label_prefix, hne, Bool.false_eq_true, if_false]
      rw [stripGo_none _ _ h1 h2, pyStrip_clean]

open Scrape in
/-- Witness for C8: the in-order first-match clause at the concrete input
of the spec example. -/
theorem C8_strip_label_spec_witness :
    strip_label_prefix (str "Description: Widget A")
      ([] ++ str "Description" :: []) = str "Widget A" :=
  C8_strip_label_spec.2.2.1 (str "Description: Widget A") [] (str "Description")
    [] (str "Widget A") (by simp) (by decide) (by decide)

open Scrape in
/-- **C9.** The extraction pipeline is deterministic: with the external
collaborators (`urljoin`, `md5` hex digest) fixed, two runs on the same
parsed document, base URL and source identifier produce identical groups
and identical group and subproduct IDs, every derivation being a pure
function of the inputs. -/
theorem C9_pipeline_deterministic :
    ∀ (uj : Str → Str → Str) (md5hex : Str → Str) (d : Node)
      (base srcHint : Option Str),
      runPipeline uj md5hex d base srcHint = runPipeline uj md5hex d base srcHint ∧
      parse_groups_from_html uj d base srcHint = parse_groups_from_html uj d base srcHint :=
  fun _ _ _ _ _ => ⟨rfl, rfl⟩

open Scrape in
/-- **C10.** When the description role is unassigned or out of range the
row name comes from the cell at index `min 1 (length - 1)` (the second
cell, or the only cell of a one-cell row), and when the price role is
unassigned or out of range the price text comes from the last cell. -/
theorem C10_row_fallback :
    ∀ (headers : List Str) (cols : Cols) (tds : List Node),
      tds ≠ [] →
      ((cols.description = none ∨ (∃ i, cols.description = some i ∧ tds.length ≤ i)) →
        rowName headers cols tds =
          strip_label_prefix (clean (nodeText (fallbackNameCell tds)))
            [str "Description", str "Desc"] ∧
        (tds.length = 1 → fallbackNameCell tds = tds.getD 0 (Node.text [])) ∧
        (2 ≤ tds.length → fallbackNameCell tds = tds.getD 1 (Node.text []))) ∧
      ((cols.price = none ∨ (∃ i, cols.price = some i ∧ tds.length ≤ i)) →
        rowPriceText cols tds =
          clean (nodeText (tds.getD (tds.length - 1) (Node.text [])))) := by
  intro headers cols tds htds
  constructor
  · intro hdesc
    refine ⟨?_, ?_, ?_⟩
    · rcases hdesc with hnone | ⟨i, hi, hlen⟩
      · simp [rowName, hnone]
      · simp [rowName, hi, Nat.not_lt_of_ge hlen]
    · intro h1
      simp [fallbackNameCell, h1]
    · intro h2
      have : min 1 (tds.length - 1) = 1 := by omega
      simp [fallbackNameCell, this]
  · intro hprice
    have hlast : (tds.getLast?).getD (Node.text []) =
        tds.getD (tds.length - 1) (Node.text []) := by
      rw [List.getLast?_eq_getElem?, List.getD_eq_getElem?_getD]
    rcases hprice with hnone | ⟨i, hi, hlen⟩
    · simp [rowPriceText, hnone, hlast]
    · simp [rowPriceText, hi, Nat.not_lt_of_ge hlen, hlast]

open Scrape in
/-- Witness for C10: a two-cell row with no assigned roles takes its name
from the second cell and its price text from the last cell. -/
theorem C10_row_fallback_witness :
    rowName [] ⟨none, none, none⟩ [tdn "Widget A", tdn "$10.00"] =
      strip_label_prefix (clean (nodeText (fallbackNameCell [tdn "Widget A", tdn "$10.00"])))
        [str "Description", str "Desc"] ∧
    rowPriceText ⟨none, none, none⟩ [tdn "Widget A", tdn "$10.00"] =
      clean (nodeText ([tdn "Widget A", tdn "$10.00"].getD 1 (Node.text []))) :=
  ⟨((C10_row_fallback [] ⟨none, none, none⟩ [tdn "Widget A", tdn "$10.00"]
      (by simp)).1 (Or.inl rfl)).1,
   (C10_row_fallback [] ⟨none, none, none⟩ [tdn "Widget A", tdn "$10.00"]
      (by simp)).2 (Or.inl rfl)⟩

open Scrape in
/-- **C3.** The image resolver returns the first collected (absolutized)
candidate that is not a placeholder; when every candidate is a placeholder
it returns the first candidate rather than nothing; when no candidates
were collected it returns none.  In particular, for a cell whose direct
`src` is a spacer but whose lazy-load attribute holds a real path, the
resolved image is the real path. -/
theorem C3_image_resolution :
    (∀ (uj : Str → Str → Str) (el : Node) (base : Option Str),
      absCandidates uj el base = [] →
      pick_image_from_cell_or_link uj el base = none) ∧
    (∀ (uj : Str → Str → Str) (el : Node) (base : Option Str) (c : Str)
       (l1 l2 : List Str),
      absCandidates uj el base = l1 ++ c :: l2 →
      (∀ x ∈ l1, is_placeholder (some x) = true) →
      is_placeholder (some c) = false →
      pick_image_from_cell_or_link uj el base = some c) ∧
    (∀ (uj : Str → Str → Str) (el : Node) (base : Option Str),
      (∀ x ∈ absCandidates uj el base, is_placeholder (some x) = true) →
      pick_image_from_cell_or_link uj el base = (absCandidates uj el base).head?) ∧
    (∀ uj : Str → Str → Str,
      pick_image_from_cell_or_link uj cellImg none = some (str "/images/p1.jpg")) := by
  refine ⟨?_, ?_, ?_, fun uj => rfl⟩
  · intro uj el base h
    simp [pick_image_from_cell_or_link, h]
  · intro uj el base c l1 l2 hsplit hall hc
    have hfind : (absCandidates uj el base).find?
        (fun x => ! is_placeholder (some x)) = some c := by
      rw [hsplit]
      exact find?_first _ l1 c l2 (fun x hx => by simp [hall x hx]) (by simp [hc])
    simp [pick_image_from_cell_or_link, hfind]
  · intro uj el base h
    have hfind : (absCandidates uj el base).find?
        (fun x => ! is_placeholder (some x)) = none := by
      rw [List.find?_eq_none]
      intro x hx
      simp [h x hx]
    simp [pick_image_from_cell_or_link, hfind]

open Scrape in
/-- Witness for C3: the spacer/lazy-load cell, whose candidate list splits
as placeholder-prefix plus real path. -/
theorem C3_image_resolution_witness :
    pick_image_from_cell_or_link ujId cellImg none = some (str "/images/p1.jpg") :=
  C3_image_resolution.2.1 ujId cellImg none (str "/images/p1.jpg")
    [str "/themes/spacer.gif"] [] (by decide) (by decide) (by decide)

open Scrape in
/-- **C5.** A table contributes a group only when some header cell text
contains "price" case-insensitively; any table failing the test (in
particular one with no header cells, for which the condition is vacuous)
contributes nothing and processing continues with the remaining tables. -/
theorem C5_price_header_filter :
    ∀ (uj : Str → Str → Str) (d : Node) (base srcHint : Option Str)
      (l1 : List (Loc × Node)) (e : Loc × Node) (l2 : List (Loc × Node)),
      tablesOf d = l1 ++ e :: l2 →
      (∀ h ∈ headersOfTable e.2, substrIn (str "price") (lower h) = false) →
      perTable uj d base srcHint e = none ∧
      parse_groups_from_html uj d base srcHint =
        l1.filterMap (perTable uj d base srcHint) ++
          l2.filterMap (perTable uj d base srcHint) := by
  intro uj d base srcHint l1 e l2 hsplit hnop
  have hnone : perTable uj d base srcHint e = none := by
    have hany : hasPriceHeader (headersOfTable e.2) = false := by
      rw [hasPriceHeader, List.any_eq_false]
      intro h hh
      simp [hnop h hh]
    by_cases hh : (headersOfTable e.2).isEmpty = true
    · simp [perTable, hh]
    · simp [perTable, hh, hany]
  refine ⟨hnone, ?_⟩
  rw [parse_groups_from_html, hsplit, List.filterMap_append, List.filterMap_cons, hnone]

open Scrape in
/-- Witness for C5: the price-less table of `exDocNoPrice` yields no group. -/
theorem C5_price_header_filter_witness :
    perTable ujId exDocNoPrice none none
      ([0], tbl [trn [thn "Name", thn "Qty"], trn [tdn "W", tdn "3"]]) = none :=
  (C5_price_header_filter ujId exDocNoPrice none none []
    ([0], tbl [trn [thn "Name", thn "Qty"], trn [tdn "W", tdn "3"]]) []
    rfl (by decide)).1

open Scrape in
/-- **C7.** A group reaches the output only with at least one subproduct
after deduplication; a candidate table whose rows all fail the name/price
requirements (so that no row survives) contributes no group at all. -/
theorem C7_nonempty_groups :
    (∀ (uj : Str → Str → Str) (d : Node) (base srcHint : Option Str) (g : Group),
      g ∈ parse_groups_from_html uj d base srcHint → g.subproducts ≠ []) ∧
    (∀ (uj : Str → Str → Str) (d : Node) (base srcHint : Option Str)
       (e : Loc × Node),
      rowItems uj base (headersOfTable e.2)
        (guess_columns (headersOfTable e.2) (some e.2)) e.2 = [] →
      perTable uj d base srcHint e = none) := by
  constructor
  · intro uj d base srcHint g hg
    obtain ⟨e, _, he⟩ := List.mem_filterMap.mp hg
    simp only [perTable] at he
    split_ifs at he with h1 h2 h3
    injection he with he
    subst he
    intro hq
    apply h3
    simp only at hq
    rw [hq]
    rfl
  · intro uj d base srcHint e h
    simp only [perTable, h, dedupFold, List.map_nil, List.isEmpty_nil]
    split_ifs <;> rfl

open Scrape in
/-- Witness for C7: the single group extracted from `exDoc` has a
non-empty subproduct list. -/
theorem C7_nonempty_groups_witness :
    ((parse_groups_from_html ujId exDoc none none).getD 0
        ⟨[], [], [], []⟩).subproducts ≠ [] :=
  C7_nonempty_groups.1 ujId exDoc none none _ (by decide)

open Scrape in
/-- **C2.** Within one emitted group no two subproducts share the same
`(name, price)` pair; each kept subproduct is, wholesale, the record of
the first surviving row carrying its dedup key (so later duplicates are
dropped and their image is never merged in); and on the concrete
`exDocDupImg` document the later duplicate's image is indeed absent from
the kept record. -/
theorem C2_dedup_invariant :
    (∀ (uj : Str → Str → Str) (d : Node) (base srcHint : Option Str) (g : Group),
      g ∈ parse_groups_from_html uj d base srcHint →
      (g.subproducts.map (fun s => (s.name, s.price))).Nodup) ∧
    (∀ (uj : Str → Str → Str) (d : Node) (base srcHint : Option Str)
       (e : Loc × Node) (g : Group), perTable uj d base srcHint e = some g →
      ∀ s ∈ g.subproducts, ∃ l1 l2,
        rowItems uj base (headersOfTable e.2)
          (guess_columns (headersOfTable e.2) (some e.2)) e.2 =
          l1 ++ (Sub.key s, s) :: l2 ∧ ∀ q ∈ l1, q.1 ≠ Sub.key s) ∧
    (parse_groups_from_html ujId exDocDupImg none none).map
        (fun g => g.subproducts) =
      [[{ name := str "Widget A", price := str "10.00", image := none }]] := by
  refine ⟨?_, ?_, by decide⟩
  · intro uj d base srcHint g hg
    obtain ⟨e, _, he⟩ := List.mem_filterMap.mp hg
    simp only [perTable] at he
    split_ifs at he with h1 h2 h3
    injection he with he
    subst he
    simp only
    have hkeys := dedupFold_keys_nodup
      (rowItems uj base (headersOfTable e.2)
        (guess_columns (headersOfTable e.2) (some e.2)) e.2) [] (by simp)
    have hco : ∀ p ∈ dedupFold
        (rowItems uj base (headersOfTable e.2)
          (guess_columns (headersOfTable e.2) (some e.2)) e.2) [],
        p.1 = Sub.key p.2 := by
      intro p hp
      rcases dedupFold_mem _ _ _ hp with hin | ⟨_, l1, l2, hsplit, _⟩
      · exact absurd hin (List.not_mem_nil p)
      · exact rowItems_key uj base _ _ _ p (by
          rw [hsplit]
          exact List.mem_append_right _ (List.mem_cons_self _ _))
    rw [List.map_congr_left hco] at hkeys
    have heq : (dedupFold
        (rowItems uj base (headersOfTable e.2)
          (guess_columns (headersOfTable e.2) (some e.2)) e.2) []).map
          (fun p => Sub.key p.2) =
        ((dedupFold
          (rowItems uj base (headersOfTable e.2)
            (guess_columns (headersOfTable e.2) (some e.2)) e.2) []).map
            (fun p => p.2)).map
          (fun s => (fun pr : Str × Str => pr.1 ++ '|' :: pr.2) (s.name, s.price)) := by
      simp [List.map_map, Sub.key]
    rw [heq] at hkeys
    have hkeys2 : ((((dedupFold
        (rowItems uj base (headersOfTable e.2)
          (guess_columns (headersOfTable e.2) (some e.2)) e.2) []).map
            (fun p => p.2)).map
          (fun s => (s.name, s.price))).map
        (fun pr : Str × Str => pr.1 ++ '|' :: pr.2)).Nodup := by
      rw [List.map_map]
      exact hkeys
    exact hkeys2.of_map _
  · intro uj d base srcHint e g he s hs
    simp only [perTable] at he
    split_ifs at he with h1 h2 h3
    injection he with he
    subst he
    simp only at hs
    obtain ⟨p, hp, hps⟩ := List.mem_map.mp hs
    rcases dedupFold_mem _ _ _ hp with hin | ⟨_, l1, l2, hsplit, hl1⟩
    · exact absurd hin (List.not_mem_nil p)
    · have hkey : p.1 = Sub.key p.2 :=
        rowItems_key uj base _ _ _ p (by
          rw [hsplit]
          exact List.mem_append_right _ (List.mem_cons_self _ _))
      obtain ⟨pk, pv⟩ := p
      simp only at hps hkey
      subst hps
      subst hkey
      exact ⟨l1, l2, hsplit, hl1⟩

open Scrape in
/-- Witness for C2: the deduplicated group of `exDoc` has pairwise
distinct `(name, price)` pairs. -/
theorem C2_dedup_invariant_witness :
    (((parse_groups_from_html ujId exDoc none none).getD 0
        ⟨[], [], [], []⟩).subproducts.map (fun s => (s.name, s.price))).Nodup :=
  C2_dedup_invariant.1 ujId exDoc none none _ (by decide)

open Scrape in
/-- Counterexample for C6: the density scan's work is *not* bounded
regardless of table size — the loop visits every row of a table whose
cumulative image count never reaches the threshold, so no constant bounds
the number of visited rows over all tables. -/
theorem C6_scan_not_bounded :
    ¬ ∃ bound : Nat, ∀ n : Nat,
      scanRowsVisited (rowsOfTable (tableNoImgRows n)) [] ≤ bound := by
  intro hex
  obtain ⟨bound, hb⟩ := hex
  have h := hb (bound + 1)
  rw [rows_tableNoImg, visited_replicate] at h
  omega

open Scrape in
/-- **C6 (amended).** The density fallback counts, per column index, cells
containing an image, row by row, and stops at the end of the first counted
row at which the cumulative count has reached 5 — rows after that point
are never scanned (though a table whose count stays below 5 is scanned in
full); the selected column is the one with the highest count, ties broken
by the first-seen maximal entry in dict insertion order. -/
theorem C6_scan_threshold :
    (∀ (rows1 rows2 : List Node) (m : List (Nat × Nat)),
      scanStopped rows1 m = true →
      scanImgCounts (rows1 ++ rows2) m = scanImgCounts rows1 m ∧
      scanRowsVisited (rows1 ++ rows2) m = scanRowsVisited rows1 m) ∧
    (∀ (m : List (Nat × Nat)) (k : Nat), firstMax m = some k →
      ∃ v l1 l2, m = l1 ++ (k, v) :: l2 ∧ (∀ q ∈ l1, q.2 < v) ∧
        (∀ q ∈ l2, q.2 ≤ v)) ∧
    (∀ (headers : List Str) (t : Node),
      (assignCols headers 0 ⟨none, none, none⟩).image = none →
      (guess_columns headers (some t)).image =
        firstMax (scanImgCounts (rowsOfTable t) [])) := by
  refine ⟨?_, firstMax_spec, ?_⟩
  · intro rows1 rows2 m h
    exact ⟨scanCounts_append rows1 rows2 m h, scanVisited_append rows1 rows2 m h⟩
  · intro headers t himg
    simp only [guess_columns]
    rw [if_pos himg]
    cases hm : firstMax (scanImgCounts (rowsOfTable t) []) with
    | none => simpa using himg
    | some j => rfl

open Scrape in
/-- Witness for C6: a first row holding five images stops the scan (a
following row is not scanned), and `firstMax` picks the first-seen maximal
column of a concrete count table. -/
theorem C6_scan_threshold_witness :
    scanImgCounts ([imgRow5] ++ [ncRow]) [] = scanImgCounts [imgRow5] [] ∧
    ∃ v l1 l2, ([(0, 1), (1, 3), (2, 3)] : List (Nat × Nat)) =
        l1 ++ (1, v) :: l2 ∧ (∀ q ∈ l1, q.2 < v) ∧ (∀ q ∈ l2, q.2 ≤ v) :=
  ⟨(C6_scan_threshold.1 [imgRow5] [ncRow] [] (by decide)).1,
   C6_scan_threshold.2.1 [(0, 1), (1, 3), (2, 3)] 1 (by decide)⟩

open Scrape in
/-- **C4.** A preceding description block is accepted as a table's
description only if the first table following it in document order is
exactly this table, the backward scan stopping at the first accepted
candidate; and in a document of two sibling heading+table pairs each
table's inferred group name is its own preceding heading's text, never the
other's, whatever the tables contain. -/
theorem C4_context_association :
    (∀ (d : Node) (tl : Loc) (e : Loc × Node), descScanEntry d tl = some e →
      isDescDiv e.2 = true ∧ firstTableAfter d e.1 = some tl ∧
      tableDescPhase1 d tl = clean (nodeText e.2) ∧
      ∃ l1 l2, descCandidatesRev d tl = l1 ++ e :: l2 ∧
        ∀ x ∈ l1, acceptDesc d tl x = false) ∧
    (∀ (a b : Str) (t1c t2c : List Node),
      (nearest_heading_and_desc (twoPairDoc a b t1c t2c) [1]).1 = clean a ∧
      (nearest_heading_and_desc (twoPairDoc a b t1c t2c) [3]).1 = clean b) := by
  constructor
  · intro d tl e h
    obtain ⟨hacc, l1, l2, hsp, hl1⟩ :=
      find?_split (acceptDesc d tl) (descCandidatesRev d tl) e h
    have hmem : e ∈ descCandidatesRev d tl := by
      rw [hsp]
      exact List.mem_append_right _ (List.mem_cons_self _ _)
    refine ⟨(List.mem_filter.mp hmem).2, by simpa [acceptDesc] using hacc,
      ?_, l1, l2, hsp, hl1⟩
    rw [tableDescPhase1, h]
  · intro a b t1c t2c
    constructor
    · have h1 : headingEntry (twoPairDoc a b t1c t2c) [1] =
          some ([0], Node.elem (str "h2") [] [Node.text a]) := by
        apply headingEntry_adjacent (twoPairDoc a b t1c t2c) []
          [0] (Node.elem (str "h2") [] [Node.text a])
          [1] (Node.elem (str "table") [] t1c)
          (entriesChildren t1c [1] 0 ++
            ([2], Node.elem (str "h2") [] [Node.text b]) ::
              ([3], Node.elem (str "table") [] t2c) :: entriesChildren t2c [3] 0)
        · simp [docElems, twoPairDoc, entriesOf, entriesChildren]
        · intro x hx
          simp at hx
        · simp
        · rfl
        · rfl
      simp only [nearest_heading_and_desc, h1]
      exact congrArg clean (by simp [nodeText, Node.strings, stringsList, joinWith])
    · have h2 : headingEntry (twoPairDoc a b t1c t2c) [3] =
          some ([2], Node.elem (str "h2") [] [Node.text b]) := by
        apply headingEntry_adjacent (twoPairDoc a b t1c t2c)
          (([0], Node.elem (str "h2") [] [Node.text a]) ::
            ([1], Node.elem (str "table") [] t1c) :: entriesChildren t1c [1] 0)
          [2] (Node.elem (str "h2") [] [Node.text b])
          [3] (Node.elem (str "table") [] t2c)
          (entriesChildren t2c [3] 0)
        · simp [docElems, twoPairDoc, entriesOf, entriesChildren]
        · intro x hx
          rcases List.mem_cons.mp hx with rfl | hx1
          · simp
          · rcases List.mem_cons.mp hx1 with rfl | hx2
            · simp
            · obtain ⟨j, c, _, hce⟩ := entriesChildren_mem t1c [1] 0 x hx2
              obtain ⟨tt, htt⟩ := entriesOf_prefix c ([1] ++ [j]) x hce
              intro heq
              rw [heq] at htt
              simp at htt
        · simp
        · rfl
        · rfl
      simp only [nearest_heading_and_desc, h2]
      exact congrArg clean (by simp [nodeText, Node.strings, stringsList, joinWith])

open Scrape in
/-- Witness for C4: the description div of `exDocDesc` is accepted because
the next table after it is the table in question, and its cleaned text
becomes the phase-1 description. -/
theorem C4_context_association_witness :
    firstTableAfter exDocDesc [0] = some [1] ∧
    tableDescPhase1 exDocDesc [1] =
      clean (nodeText (Node.elem (str "div")
        [(str "class", str "product-description")] [Node.text (str "Nice desc")])) :=
  ⟨(C4_context_association.1 exDocDesc [1]
      ([0], Node.elem (str "div") [(str "class", str "product-description")]
        [Node.text (str "Nice desc")]) rfl).2.1,
   (C4_context_association.1 exDocDesc [1]
      ([0], Node.elem (str "div") [(str "class", str "product-description")]
        [Node.text (str "Nice desc")]) rfl).2.2.1⟩
